import Mathlib

/-!
Verification of the Grover's-search circuit builders of this repository
(`circuits/grover.py`, `main.py`).

The circuit builders (`index_to_bitstring`, `build_oracle`, `build_diffuser`,
`build_grover_circuit`, `recommend_iterations`) are translated directly from
the Python source.  The state-vector semantics of the fixed gate vocabulary
{X, H, Z, MCX, measure} is modelled from the specification's simulation
engine (spec §4.7), with the index convention of spec §3: bit `i` of the
MSB-first `n`-wide binary representation of a basis index corresponds to
qubit `i`, i.e. qubit `q` lives at binary position `n - 1 - q`.

All amplitudes arising in these circuits lie in the ring ℚ[√2]; we represent
them by pairs `a + b·√2` of rationals (`Q2`), which keeps every gate
application computable and state equalities decidable.
-/

namespace Grover

/-- The ring ℚ[√2]: the value `a + b·√2` represented by its two rational
coordinates.  Every amplitude produced by the gate set {X, H, Z, MCX} from
rational initial amplitudes lies in this ring. -/
@[ext] structure Q2 where
  a : ℚ
  b : ℚ
deriving DecidableEq, Repr

instance : Zero Q2 := ⟨⟨0, 0⟩⟩

instance : One Q2 := ⟨⟨1, 0⟩⟩

instance : Add Q2 := ⟨fun x y => ⟨x.a + y.a, x.b + y.b⟩⟩

instance : Neg Q2 := ⟨fun x => ⟨-x.a, -x.b⟩⟩

instance : Mul Q2 := ⟨fun x y => ⟨x.a * y.a + 2 * (x.b * y.b), x.a * y.b + x.b * y.a⟩⟩

@[simp] theorem Q2.zero_a : (0 : Q2).a = 0 := rfl

@[simp] theorem Q2.zero_b : (0 : Q2).b = 0 := rfl

@[simp] theorem Q2.one_a : (1 : Q2).a = 1 := rfl

@[simp] theorem Q2.one_b : (1 : Q2).b = 0 := rfl

@[simp] theorem Q2.add_a (x y : Q2) : (x + y).a = x.a + y.a := rfl

@[simp] theorem Q2.add_b (x y : Q2) : (x + y).b = x.b + y.b := rfl

@[simp] theorem Q2.neg_a (x : Q2) : (-x).a = -x.a := rfl

@[simp] theorem Q2.neg_b (x : Q2) : (-x).b = -x.b := rfl

@[simp] theorem Q2.mul_a (x y : Q2) : (x * y).a = x.a * y.a + 2 * (x.b * y.b) := rfl

@[simp] theorem Q2.mul_b (x y : Q2) : (x * y).b = x.a * y.b + x.b * y.a := rfl

instance : CommRing Q2 where
  nsmul := nsmulRec
  zsmul := zsmulRec
  add_assoc x y z := by ext <;> simp <;> ring
  zero_add x := by ext <;> simp
  add_zero x := by ext <;> simp
  add_comm x y := by ext <;> simp <;> ring
  left_distrib x y z := by ext <;> simp <;> ring
  right_distrib x y z := by ext <;> simp <;> ring
  zero_mul x := by ext <;> simp
  mul_zero x := by ext <;> simp
  mul_assoc x y z := by ext <;> simp <;> ring
  one_mul x := by ext <;> simp
  mul_one x := by ext <;> simp
  neg_add_cancel x := by ext <;> simp
  mul_comm x y := by ext <;> simp <;> ring

@[simp] theorem Q2.sub_a (x y : Q2) : (x - y).a = x.a - y.a := by
  rw [sub_eq_add_neg, Q2.add_a, Q2.neg_a, ← sub_eq_add_neg]

@[simp] theorem Q2.sub_b (x y : Q2) : (x - y).b = x.b - y.b := by
  rw [sub_eq_add_neg, Q2.add_b, Q2.neg_b, ← sub_eq_add_neg]

/-- Embedding of the rationals into ℚ[√2]. -/
def Q2.ofRat (q : ℚ) : Q2 := ⟨q, 0⟩

@[simp] theorem Q2.ofRat_a (q : ℚ) : (Q2.ofRat q).a = q := rfl

@[simp] theorem Q2.ofRat_b (q : ℚ) : (Q2.ofRat q).b = 0 := rfl

/-- The amplitude `1/√2 = √2/2`, the scalar introduced by a Hadamard gate. -/
def invSqrt2 : Q2 := ⟨0, 1/2⟩

/-- The real value denoted by an element of ℚ[√2]. -/
noncomputable def Q2.toReal (z : Q2) : ℝ := (z.a : ℝ) + (z.b : ℝ) * Real.sqrt 2

/-! ### The gate vocabulary and circuits (spec §3, source `grover.py`) -/

/-- A circuit operation: the fixed gate vocabulary {X, H, Z, MCX} of the
source plus the terminal measurement step `measure qubit clbit`
(Qiskit's `qc.measure(q, c)`). -/
inductive Op where
  | x (q : Nat)
  | h (q : Nat)
  | z (q : Nat)
  | mcx (controls : List Nat) (target : Nat)
  | measure (q : Nat) (c : Nat)
deriving DecidableEq, Repr

/-- Whether an operation is a measurement step. -/
def Op.isMeasure : Op → Bool
  | .measure _ _ => true
  | _ => false

/-- A circuit: a declared qubit count, classical bit count, and an ordered
operation sequence (sub-circuit appends are flat inlining, spec §9). -/
structure Circuit where
  numQubits : Nat
  numClbits : Nat
  ops : List Op
deriving DecidableEq, Repr

/-! ### Bit-index utility (source `index_to_bitstring`, spec §4.1)

Python's `format(index, f"0{n}b")`: the binary digits of `|index|`
(MSB first), zero-padded on the left to total width `n` (the sign, present
exactly when `index < 0`, counts towards the width).  It never truncates
and never raises. -/

/-- The character for one binary digit. -/
def binDigit (k : Nat) : Char := if k = 1 then '1' else '0'

/-- Binary digits of `k`, MSB first, with explicit fuel (the fuel `k + 1`
always suffices; fuel keeps the recursion structural). -/
def natToBinAux : Nat → Nat → List Char
  | 0, _ => []
  | fuel + 1, k => if k < 2 then [binDigit k] else natToBinAux fuel (k / 2) ++ [binDigit (k % 2)]

/-- Binary digits of `k`, MSB first (`[0] ↦ "0"`). -/
def natToBin (k : Nat) : List Char := natToBinAux (k + 1) k

/-- Left-pad a digit list with `'0'` to width `w` (no-op when already wide). -/
def zeroPad (w : Nat) (l : List Char) : List Char := List.replicate (w - l.length) '0' ++ l

/-- `index_to_bitstring(index, n)` from `grover.py`: `format(index, f"0{n}b")`. -/
def index_to_bitstring (index : Int) (n : Nat) : String :=
  if index < 0 then ⟨'-' :: zeroPad (n - 1) (natToBin index.natAbs)⟩
  else ⟨zeroPad n (natToBin index.toNat)⟩

/-- The numeric value of an MSB-first binary digit list (used to state that
`index_to_bitstring` is MSB-first). -/
def binToNat (l : List Char) : Nat := l.foldl (fun acc c => 2 * acc + (if c = '1' then 1 else 0)) 0

/-! ### The circuit builders (source `grover.py`) -/

/-- `H` on every qubit `0 .. n-1` in order: `qc.h(range(n))`. -/
def hOps (n : Nat) : List Op := (List.range n).map Op.h

/-- `X` on every qubit `0 .. n-1` in order: `qc.x(range(n))`. -/
def xOps (n : Nat) : List Op := (List.range n).map Op.x

/-- The multi-controlled-Z block shared by oracle and diffuser
(`grover.py` lines 41–48 and 74–80): `Z(0)` when `n == 1`, otherwise
`H(n-1); MCX([0..n-2], n-1); H(n-1)`. -/
def mczOps (n : Nat) : List Op :=
  if n = 1 then [Op.z 0]
  else [Op.h (n - 1), Op.mcx (List.range (n - 1)) (n - 1), Op.h (n - 1)]

/-- The string positions `i` with `bs[i] == '0'`
(`for i, b in enumerate(bs): if b == "0"`). -/
def zeroPositions (bs : List Char) : List Nat :=
  bs.enum.filterMap (fun p => if p.2 = '0' then some p.1 else none)

/-- The `X` gates of the oracle: one `X(i)` for each string position `i`
with `bs[i] == '0'` (`for i, b in enumerate(bs): if b == "0": qc.x(i)`). -/
def xFlips (bs : List Char) : List Op := (zeroPositions bs).map Op.x

/-- The operation list of `build_oracle(n, marked)` (after its range check). -/
def oracleCircuitOps (n : Nat) (marked : Int) : List Op :=
  xFlips (index_to_bitstring marked n).data ++ mczOps n ++ xFlips (index_to_bitstring marked n).data

/-- `build_oracle(n, marked_index)`: raises `ValueError` ("DomainError")
iff `marked_index` is outside `[0, 2^n)`. -/
def build_oracle (n : Nat) (marked_index : Int) : Except String Circuit :=
  if marked_index < 0 ∨ (2:Int)^n ≤ marked_index then Except.error "marked_index out of range"
  else Except.ok ⟨n, 0, oracleCircuitOps n marked_index⟩

/-- The operation list of `build_diffuser(n)`:
`H⊗ⁿ; X⊗ⁿ; multi-controlled-Z; X⊗ⁿ; H⊗ⁿ`. -/
def diffuserOps (n : Nat) : List Op := hOps n ++ xOps n ++ mczOps n ++ xOps n ++ hOps n

/-- `build_diffuser(n)` from `grover.py` (no validation in the source). -/
def build_diffuser (n : Nat) : Circuit := ⟨n, 0, diffuserOps n⟩

/-- The terminal measurement step `qc.measure(range(n), range(n))`:
qubit `i` measured into classical bit `i`. -/
def measureOps (n : Nat) : List Op := (List.range n).map (fun i => Op.measure i i)

/-- `build_grover_circuit(n, marked_index, iterations)`: `H` on all qubits,
`iterations` repetitions of (oracle; diffuser) inlined, then measurement of
all qubits.  Raises for `n < 1`; an out-of-range `marked_index` propagates
the oracle's error.  Python's `range(iterations)` is empty for
`iterations ≤ 0`, i.e. `iterations.toNat` repetitions. -/
def build_grover_circuit (n marked_index iterations : Int) : Except String Circuit :=
  if n < 1 then Except.error "n must be >= 1"
  else
    match build_oracle n.toNat marked_index with
    | Except.error e => Except.error e
    | Except.ok oracle =>
        Except.ok ⟨n.toNat, n.toNat,
          hOps n.toNat
            ++ (List.replicate iterations.toNat (oracle.ops ++ (build_diffuser n.toNat).ops)).flatten
            ++ measureOps n.toNat⟩

/-- Whether an `Except` result is a success. -/
def isOkB (e : Except String Circuit) : Bool :=
  match e with
  | Except.ok _ => true
  | Except.error _ => false

/-- `recommend_iterations(n)` from `main.py`:
`max(1, floor((pi/4) * sqrt(2^n)))` (the source's double-precision
arithmetic is modelled by exact real arithmetic). -/
noncomputable def recommend_iterations (n : Nat) : Int :=
  max 1 ⌊(Real.pi / 4) * Real.sqrt ((2:ℝ)^n)⌋

/-! ### State-vector semantics (modelled from the spec, §4.7 and §3)

A state is a complex-amplitude vector over basis indices; all amplitudes
reached here are real elements of ℚ[√2], so a state is `Nat → Q2` (indices
`≥ 2^n` are irrelevant padding).  Qubit `q` of an `n`-qubit register is
binary position `n - 1 - q` of the basis index (spec §3: MSB-first). -/

/-- A state vector, as amplitudes indexed by basis index. -/
def State := Nat → Q2

/-- Hadamard gate at binary position `p`:
`|0⟩ ↦ (|0⟩+|1⟩)/√2`, `|1⟩ ↦ (|0⟩−|1⟩)/√2` on that bit. -/
def hGate (p : Nat) (v : State) : State := fun k =>
  if k.testBit p then invSqrt2 * (v (k ^^^ 2^p) - v k)
  else invSqrt2 * (v k + v (k ^^^ 2^p))

/-- X (bit-flip) gate at binary position `p`. -/
def xGate (p : Nat) (v : State) : State := fun k => v (k ^^^ 2^p)

/-- Z (phase-flip) gate at binary position `p`. -/
def zGate (p : Nat) (v : State) : State := fun k => if k.testBit p then -(v k) else v k

/-- Multi-controlled X: flip the bit at position `tp` exactly when all the
bits at the control positions `cps` are 1. -/
def mcxGate (cps : List Nat) (tp : Nat) (v : State) : State := fun k =>
  if cps.all (fun p => k.testBit p) then v (k ^^^ 2^tp) else v k

/-- Apply one operation of an `n`-qubit circuit (spec §4.7; measurement is
terminal and does not transform the pre-measurement amplitudes). -/
def applyOp (n : Nat) (v : State) : Op → State
  | .x q => xGate (n - 1 - q) v
  | .h q => hGate (n - 1 - q) v
  | .z q => zGate (n - 1 - q) v
  | .mcx cs t => mcxGate (cs.map (fun c => n - 1 - c)) (n - 1 - t) v
  | .measure _ _ => v

/-- Apply an operation list in sequence (a strict sequential fold, spec §5). -/
def applyOps (n : Nat) (ops : List Op) (v : State) : State := ops.foldl (applyOp n) v

/-- The all-mass-on-index-0 initial state (spec §4.7 **Init**). -/
def init0 : State := fun k => if k = 0 then 1 else 0

/-- The uniform superposition over `n` qubits: every amplitude `1/√(2ⁿ)`. -/
def uniformState (n : Nat) : State := fun _ => invSqrt2 ^ n

/-- The measurement probability carried by an amplitude: `|z|²` (spec §4.7). -/
noncomputable def probOf (z : Q2) : ℝ := (Q2.toReal z) ^ 2

/-- Sum of the first `m` amplitudes of a state. -/
def sumRange (m : Nat) (v : State) : Q2 := ((List.range m).map v).sum

/-- The mean amplitude of an `n`-qubit state (spec §4.4: the diffuser
reflects about this value). -/
def amplitudeMean (n : Nat) (v : State) : Q2 := Q2.ofRat (1 / 2^n) * sumRange (2^n) v

/-- Binary positions `n-1, n-2, …, 0` touched by a gate layer on qubits
`0, 1, …, n-1`, in application order. -/
def posns (n : Nat) : List Nat := (List.range n).map (fun q => n - 1 - q)

/-- Fold of Hadamard gates over a list of binary positions. -/
def hFold (ps : List Nat) (v : State) : State := ps.foldl (fun st p => hGate p st) v

/-- Right-fold variant of `hFold` (applies the head last). -/
def hFoldR (ps : List Nat) (v : State) : State := ps.foldr (fun p st => hGate p st) v

/-- Fold of X gates over a list of binary positions. -/
def xFold (ps : List Nat) (v : State) : State := ps.foldl (fun st p => xGate p st) v

/-- All XOR-combinations of the masks `2^p` for `p` in `ps`:
the sub-cube of basis indices spanned by the positions `ps`. -/
def subsetMasks : List Nat → List Nat
  | [] => [0]
  | p :: rest => subsetMasks rest ++ (subsetMasks rest).map (· ^^^ 2^p)

/-- The combined bit mask `⨁ 2^p` of a list of binary positions. -/
def maskSum (ps : List Nat) : Nat := ps.foldr (fun p m => 2^p ^^^ m) 0

/-- The binary-position mask of the `X`-conjugation layer of
`build_oracle n marked`. -/
def flipMask (n : Nat) (marked : Int) : Nat :=
  maskSum ((zeroPositions (index_to_bitstring marked n).data).map (fun q => n - 1 - q))

/-- `allOnesB n k`: the low `n` bits of `k` are all 1 (the firing condition
of the multi-controlled-Z block). -/
def allOnesB (n k : Nat) : Bool := (List.range n).all (fun p => k.testBit p)

/-- A concrete sample state used by witness theorems. -/
def vW : State := fun k => ⟨(k : ℚ), 1⟩

/-! ### Arithmetic helper lemmas -/

theorem invSqrt2_sq' : invSqrt2 * invSqrt2 + invSqrt2 * invSqrt2 = 1 := by
  ext <;> simp [invSqrt2] <;> norm_num

theorem Q2.ofRat_mul (q r : ℚ) : Q2.ofRat q * Q2.ofRat r = Q2.ofRat (q * r) := by
  ext <;> simp

theorem Q2.ofRat_one : Q2.ofRat 1 = 1 := rfl

theorem invSqrt2_sq : invSqrt2 * invSqrt2 = Q2.ofRat (1/2) := by
  ext <;> simp [invSqrt2] <;> norm_num

theorem invSqrt2_pow_mul_self (n : Nat) : invSqrt2^n * invSqrt2^n = Q2.ofRat (1/2^n) := by
  induction n with
  | zero => simp [Q2.ofRat_one]
  | succ m ih =>
      have : invSqrt2^(m+1) * invSqrt2^(m+1)
          = (invSqrt2^m * invSqrt2^m) * (invSqrt2 * invSqrt2) := by ring
      rw [this, ih, invSqrt2_sq, Q2.ofRat_mul]
      congr 1
      rw [pow_succ]
      ring

theorem xor_two_pow_eq_add {j m : Nat} (h : j < 2^m) : j ^^^ 2^m = j + 2^m := by
  apply Nat.eq_of_testBit_eq
  intro i
  rcases Nat.lt_trichotomy i m with hi | rfl | hi
  · rw [Nat.testBit_xor, Nat.testBit_two_pow_of_ne (by omega), Nat.add_comm,
      Nat.testBit_two_pow_add_gt hi]
    simp
  · rw [Nat.testBit_xor, Nat.testBit_two_pow_self, Nat.add_comm, Nat.testBit_two_pow_add_eq,
      Nat.testBit_lt_two_pow h]
    rfl
  · have h1 : j.testBit i = false :=
      Nat.testBit_lt_two_pow (lt_of_lt_of_le h (Nat.pow_le_pow_right (by norm_num) hi.le))
    have h2 : (j + 2^m).testBit i = false := by
      apply Nat.testBit_lt_two_pow
      have hp : 2^(m+1) ≤ 2^i := Nat.pow_le_pow_right (by norm_num) hi
      have hp2 : 2^(m+1) = 2^m + 2^m := by rw [Nat.pow_succ]; omega
      omega
    rw [Nat.testBit_xor, Nat.testBit_two_pow_of_ne (by omega), h1, h2]
    rfl

theorem testBit_xor_pow (k p : Nat) : (k ^^^ 2^p).testBit p = !k.testBit p := by
  simp [Nat.testBit_xor, Nat.testBit_two_pow_self]

theorem testBit_xor_pow_ne {p q : Nat} (hpq : p ≠ q) (k : Nat) :
    (k ^^^ 2^q).testBit p = k.testBit p := by
  simp [Nat.testBit_xor, Nat.testBit_two_pow_of_ne (Ne.symm hpq)]

theorem xor_pow_cancel (k p : Nat) : k ^^^ 2^p ^^^ 2^p = k := by
  simp [Nat.xor_assoc]

/-! ### Lemmas on the binary-position list of a gate layer -/

theorem posns_succ (n : Nat) : posns (n+1) = n :: posns n := by
  unfold posns
  rw [List.range_succ_eq_map, List.map_cons, List.map_map]
  refine congrArg₂ List.cons (by omega) (List.map_congr_left ?_)
  intro q _
  simp only [Function.comp_apply]
  omega

theorem mem_posns {n p : Nat} : p ∈ posns n ↔ p < n := by
  unfold posns
  simp only [List.mem_map, List.mem_range]
  constructor
  · rintro ⟨q, hq, rfl⟩; omega
  · intro hp; exact ⟨n - 1 - p, by omega, by omega⟩

theorem posns_nodup (n : Nat) : (posns n).Nodup := by
  unfold posns
  refine List.Nodup.map_on ?_ (List.nodup_range n)
  intro x hx y hy hxy
  simp only [List.mem_range] at hx hy
  omega

theorem posns_length (n : Nat) : (posns n).length = n := by simp [posns]

/-! ### Single-gate algebra: involutions and commutation -/

theorem xGate_xGate (p : Nat) (v : State) : xGate p (xGate p v) = v := by
  funext k
  simp [xGate, xor_pow_cancel]

theorem zGate_zGate (p : Nat) (v : State) : zGate p (zGate p v) = v := by
  funext k
  simp only [zGate]
  split <;> simp

theorem hGate_hGate (p : Nat) (v : State) : hGate p (hGate p v) = v := by
  funext k
  simp only [hGate]
  by_cases hb : k.testBit p <;>
    simp [hb, testBit_xor_pow, xor_pow_cancel] <;>
    linear_combination (v k) * invSqrt2_sq'

theorem hGate_comm {p q : Nat} (hpq : p ≠ q) (v : State) :
    hGate p (hGate q v) = hGate q (hGate p v) := by
  funext k
  have txx : k ^^^ 2^q ^^^ 2^p = k ^^^ 2^p ^^^ 2^q := by
    rw [Nat.xor_assoc, Nat.xor_assoc, Nat.xor_comm (2^q)]
  by_cases hp : k.testBit p <;> by_cases hq : k.testBit q <;>
    simp [hGate, hp, hq, testBit_xor_pow_ne hpq, testBit_xor_pow_ne (Ne.symm hpq), txx] <;>
    ring

theorem xGate_comm (p q : Nat) (v : State) : xGate p (xGate q v) = xGate q (xGate p v) := by
  funext k
  simp only [xGate]
  rw [Nat.xor_assoc, Nat.xor_assoc, Nat.xor_comm (2^q)]

/-! ### Fold machinery for gate layers -/

theorem foldl_gate_comm (g : Nat → State → State)
    (hcomm : ∀ p q v, p ≠ q → g p (g q v) = g q (g p v))
    (ps : List Nat) (p : Nat) (hp : p ∉ ps) (v : State) :
    g p (ps.foldl (fun st q => g q st) v) = ps.foldl (fun st q => g q st) (g p v) := by
  induction ps generalizing v with
  | nil => rfl
  | cons q t ih =>
      rw [List.mem_cons] at hp
      push_neg at hp
      simp only [List.foldl_cons]
      rw [ih hp.2 (g q v), hcomm p q v hp.1]

theorem foldl_gate_cancel (g : Nat → State → State)
    (hinv : ∀ p v, g p (g p v) = v)
    (hcomm : ∀ p q v, p ≠ q → g p (g q v) = g q (g p v))
    (ps : List Nat) (hnd : ps.Nodup) (v : State) :
    ps.foldl (fun st q => g q st) (ps.foldl (fun st q => g q st) v) = v := by
  induction ps generalizing v with
  | nil => rfl
  | cons q t ih =>
      rw [List.nodup_cons] at hnd
      simp only [List.foldl_cons]
      rw [foldl_gate_comm g hcomm t q hnd.1 (g q v), hinv q v]
      exact ih hnd.2 v

/-! ### Bridging `applyOps` to position-indexed gate folds -/

theorem applyOps_append (n : Nat) (l1 l2 : List Op) (v : State) :
    applyOps n (l1 ++ l2) v = applyOps n l2 (applyOps n l1 v) := by
  simp [applyOps, List.foldl_append]

theorem applyOps_map_h (n : Nat) (l : List Nat) (v : State) :
    applyOps n (l.map Op.h) v = hFold (l.map (fun q => n - 1 - q)) v := by
  simp only [applyOps, hFold, List.foldl_map]
  rfl

theorem applyOps_map_x (n : Nat) (l : List Nat) (v : State) :
    applyOps n (l.map Op.x) v = xFold (l.map (fun q => n - 1 - q)) v := by
  simp only [applyOps, xFold, List.foldl_map]
  rfl

theorem applyOps_hOps (n : Nat) (v : State) : applyOps n (hOps n) v = hFold (posns n) v :=
  applyOps_map_h n (List.range n) v

theorem applyOps_xOps (n : Nat) (v : State) : applyOps n (xOps n) v = xFold (posns n) v :=
  applyOps_map_x n (List.range n) v

theorem applyOps_measures (n : Nat) (l : List Nat) (v : State) :
    applyOps n (l.map (fun i => Op.measure i i)) v = v := by
  induction l generalizing v with
  | nil => rfl
  | cons i t ih =>
      simp only [List.map_cons, applyOps, List.foldl_cons]
      exact ih v

theorem applyOps_measureOps (n : Nat) (v : State) : applyOps n (measureOps n) v = v :=
  applyOps_measures n (List.range n) v

/-! ### The X-layer acts by a fixed XOR mask -/

theorem xFold_eq (ps : List Nat) (v : State) : xFold ps v = fun k => v (k ^^^ maskSum ps) := by
  induction ps generalizing v with
  | nil => funext k; simp [xFold, maskSum]
  | cons p t ih =>
      calc xFold (p :: t) v = xFold t (xGate p v) := rfl
        _ = fun k => (xGate p v) (k ^^^ maskSum t) := ih (xGate p v)
        _ = fun k => v (k ^^^ maskSum (p :: t)) := by
            funext k
            simp only [xGate, maskSum, List.foldr_cons]
            rw [Nat.xor_assoc, Nat.xor_comm (List.foldr (fun p m => 2^p ^^^ m) 0 t)]

/-! ### The multi-controlled-Z block flips exactly the all-ones amplitude -/

theorem all_testBit_xor_pow {l : List Nat} {t : Nat} (hl : ∀ p ∈ l, p ≠ t) (k : Nat) :
    l.all ((k ^^^ 2^t).testBit ·) = l.all (k.testBit ·) := by
  induction l with
  | nil => rfl
  | cons p r ih =>
      simp only [List.all_cons]
      rw [testBit_xor_pow_ne (hl p (List.mem_cons_self p r)),
        ih (fun q hq => hl q (List.mem_cons_of_mem p hq))]

theorem allOnesB_eq_controls (n k : Nat) (h2 : 2 ≤ n) :
    allOnesB n k
      = (((List.range (n-1)).map (fun c => n - 1 - c)).all (k.testBit ·) && k.testBit 0) := by
  rw [Bool.eq_iff_iff]
  simp only [allOnesB, List.all_eq_true, List.mem_range, List.mem_map, Bool.and_eq_true]
  constructor
  · intro h
    refine ⟨?_, h 0 (by omega)⟩
    rintro p ⟨c, hc, rfl⟩
    exact h (n - 1 - c) (by omega)
  · rintro ⟨hc, h0⟩ p hp
    rcases Nat.eq_zero_or_pos p with rfl | hp0
    · exact h0
    · exact hc p ⟨n - 1 - p, by omega, by omega⟩

theorem hmxh_apply (cps : List Nat) (tp : Nat) (hcr : ∀ p ∈ cps, p ≠ tp) (v : State) (k : Nat) :
    hGate tp (mcxGate cps tp (hGate tp v)) k
      = if (cps.all (k.testBit ·) && k.testBit tp) then -(v k) else v k := by
  cases hb : k.testBit tp <;> cases hc : cps.all (k.testBit ·) <;>
    simp only [hGate, mcxGate, all_testBit_xor_pow hcr, testBit_xor_pow, xor_pow_cancel,
      hb, hc, Bool.not_false, Bool.not_true, Bool.false_and, Bool.true_and, Bool.and_false,
      Bool.and_true, Bool.false_eq_true, eq_self_iff_true, if_true, if_false] <;>
    first
      | linear_combination (v k) * invSqrt2_sq'
      | linear_combination (-(v k)) * invSqrt2_sq'

theorem mczOps_apply (n : Nat) (hn : 1 ≤ n) (v : State) (k : Nat) :
    applyOps n (mczOps n) v k = if allOnesB n k then -(v k) else v k := by
  rcases Nat.lt_or_ge n 2 with h2 | h2
  · have hn1 : n = 1 := by omega
    subst hn1
    show zGate (1 - 1 - 0) v k = _
    simp only [zGate, allOnesB, show List.range 1 = [0] from rfl, List.all_cons, List.all_nil,
      Bool.and_true]
  · have hne : ¬ n = 1 := by omega
    have ht : n - 1 - (n - 1) = 0 := by omega
    have hcr : ∀ p ∈ (List.range (n-1)).map (fun c => n - 1 - c), p ≠ 0 := by
      intro p hp
      rcases List.mem_map.mp hp with ⟨c, hc, rfl⟩
      simp only [List.mem_range] at hc
      omega
    simp only [mczOps, if_neg hne, applyOps, List.foldl_cons, List.foldl_nil, applyOp, ht]
    rw [hmxh_apply _ 0 hcr v k, allOnesB_eq_controls n k h2]

/-! ### Layer-level lemmas for the Hadamard and X walls -/

theorem hFold_hFold {ps : List Nat} (hnd : ps.Nodup) (v : State) :
    hFold ps (hFold ps v) = v :=
  foldl_gate_cancel hGate hGate_hGate (fun p q w hpq => hGate_comm hpq w) ps hnd v

theorem xFold_xFold (ps : List Nat) (v : State) : xFold ps (xFold ps v) = v := by
  funext k
  simp only [xFold_eq]
  simp [Nat.xor_assoc]

theorem hFold_sub_smul (ps : List Nat) (u z : State) (c : Q2) :
    hFold ps (fun j => u j - c * z j) = fun k => hFold ps u k - c * hFold ps z k := by
  induction ps generalizing u z with
  | nil => rfl
  | cons p t ih =>
      have hstep : hGate p (fun j => u j - c * z j) = fun j => hGate p u j - c * hGate p z j := by
        funext j
        by_cases hb : j.testBit p <;> simp [hGate, hb] <;> ring
      calc hFold (p :: t) (fun j => u j - c * z j)
          = hFold t (hGate p (fun j => u j - c * z j)) := rfl
        _ = hFold t (fun j => hGate p u j - c * hGate p z j) := by rw [hstep]
        _ = fun k => hFold t (hGate p u) k - c * hFold t (hGate p z) k := ih _ _
        _ = fun k => hFold (p :: t) u k - c * hFold (p :: t) z k := rfl

theorem hFold_congr_low {n : Nat} {ps : List Nat} (hps : ∀ p ∈ ps, p < n) {w1 w2 : State}
    (h : ∀ j, j < 2^n → w1 j = w2 j) : ∀ k, k < 2^n → hFold ps w1 k = hFold ps w2 k := by
  induction ps generalizing w1 w2 with
  | nil => exact h
  | cons p t ih =>
      refine ih (fun q hq => hps q (List.mem_cons_of_mem p hq)) ?_
      intro j hj
      have hp : p < n := hps p (List.mem_cons_self p t)
      have hxlt : j ^^^ 2^p < 2^n :=
        Nat.xor_lt_two_pow hj (Nat.pow_lt_pow_right (by norm_num) hp)
      simp only [hGate]
      rw [h j hj, h (j ^^^ 2^p) hxlt]

/-! ### The Walsh–Hadamard facts needed for the diffuser -/

theorem subsetMasks_testBit {ps : List Nat} {q : Nat} (hq : q ∉ ps) :
    ∀ j ∈ subsetMasks ps, j.testBit q = false := by
  induction ps with
  | nil =>
      intro j hj
      simp only [subsetMasks, List.mem_singleton] at hj
      subst hj
      exact Nat.zero_testBit q
  | cons p t ih =>
      rw [List.mem_cons] at hq
      push_neg at hq
      intro j hj
      rcases List.mem_append.mp hj with hj | hj
      · exact ih hq.2 j hj
      · rcases List.mem_map.mp hj with ⟨j', hj', rfl⟩
        rw [Nat.testBit_xor, ih hq.2 j' hj', Nat.testBit_two_pow_of_ne (fun e => hq.1 e.symm)]
        rfl

theorem sum_map_mul_add (l : List Nat) (c : Q2) (f g : Nat → Q2) :
    (l.map (fun j => c * (f j + g j))).sum = c * ((l.map f).sum + (l.map g).sum) := by
  induction l with
  | nil => simp
  | cons j t ih =>
      simp only [List.map_cons, List.sum_cons, ih]
      ring

theorem hFold_zero (ps : List Nat) (hnd : ps.Nodup) (v : State) :
    hFold ps v 0 = invSqrt2 ^ ps.length * ((subsetMasks ps).map v).sum := by
  induction ps generalizing v with
  | nil => simp [hFold, subsetMasks]
  | cons p t ih =>
      rw [List.nodup_cons] at hnd
      have step : hFold (p :: t) v 0 = hFold t (hGate p v) 0 := rfl
      rw [step, ih hnd.2 (hGate p v)]
      have hmap : (subsetMasks t).map (hGate p v)
          = (subsetMasks t).map (fun j => invSqrt2 * (v j + v (j ^^^ 2^p))) := by
        refine List.map_congr_left ?_
        intro j hj
        have hjp : j.testBit p = false := subsetMasks_testBit hnd.1 j hj
        simp [hGate, hjp]
      rw [hmap, sum_map_mul_add]
      simp only [subsetMasks, List.map_append, List.sum_append, List.map_map,
        List.length_cons, Function.comp_def]
      rw [pow_succ]
      ring

theorem hFoldR_delta (ps : List Nat) (hnd : ps.Nodup) (k : Nat) :
    ((∀ q, k.testBit q = true → q ∈ ps) → hFoldR ps init0 k = invSqrt2 ^ ps.length)
    ∧ ((∃ q, k.testBit q = true ∧ q ∉ ps) → hFoldR ps init0 k = 0) := by
  induction ps generalizing k with
  | nil =>
      constructor
      · intro h
        have hk : k = 0 := by
          apply Nat.zero_of_testBit_eq_false
          intro i
          by_contra hi
          exact absurd (h i (by cases hii : k.testBit i <;> simp_all)) (List.not_mem_nil i)
        subst hk
        simp [hFoldR, init0]
      · rintro ⟨q, hq, -⟩
        have hk : k ≠ 0 := by
          intro e
          subst e
          rw [Nat.zero_testBit] at hq
          exact Bool.false_ne_true hq
        simp [hFoldR, init0, hk]
  | cons p t ih =>
      rw [List.nodup_cons] at hnd
      have hstep : hFoldR (p :: t) init0 k = hGate p (hFoldR t init0) k := rfl
      constructor
      · intro h
        rw [hstep]
        by_cases hb : k.testBit p
        · have h1 : hFoldR t init0 k = 0 := (ih hnd.2 k).2 ⟨p, hb, hnd.1⟩
          have h2 : hFoldR t init0 (k ^^^ 2^p) = invSqrt2 ^ t.length := by
            refine (ih hnd.2 _).1 ?_
            intro q hq
            by_cases hqp : q = p
            · subst hqp
              rw [testBit_xor_pow, hb] at hq
              exact absurd hq (by simp)
            · rw [testBit_xor_pow_ne hqp] at hq
              rcases List.mem_cons.mp (h q hq) with e | ht
              · exact absurd e hqp
              · exact ht
          simp only [hGate, hb, if_true, h1, h2, List.length_cons, pow_succ]
          ring
        · have h2 : hFoldR t init0 (k ^^^ 2^p) = 0 := by
            refine (ih hnd.2 _).2 ⟨p, ?_, hnd.1⟩
            rw [testBit_xor_pow]
            simp only [Bool.not_eq_true] at hb
            rw [hb]
            rfl
          have h1 : hFoldR t init0 k = invSqrt2 ^ t.length := by
            refine (ih hnd.2 k).1 ?_
            intro q hq
            have hqp : q ≠ p := by
              intro e
              subst e
              exact hb hq
            rcases List.mem_cons.mp (h q hq) with e | ht
            · exact absurd e hqp
            · exact ht
          simp only [hGate, hb, Bool.false_eq_true, if_false, h1, h2, List.length_cons,
            pow_succ]
          ring
      · rintro ⟨q, hq, hqm⟩
        rw [hstep]
        rw [List.mem_cons] at hqm
        push_neg at hqm
        have h1 : hFoldR t init0 k = 0 := (ih hnd.2 k).2 ⟨q, hq, hqm.2⟩
        have h2 : hFoldR t init0 (k ^^^ 2^p) = 0 := by
          refine (ih hnd.2 _).2 ⟨q, ?_, hqm.2⟩
          rw [testBit_xor_pow_ne hqm.1]
          exact hq
        by_cases hb : k.testBit p <;> simp [hGate, hb, h1, h2]

theorem hFold_eq_hFoldR (ps : List Nat) (v : State) : hFold ps v = hFoldR ps.reverse v := by
  induction ps generalizing v with
  | nil => rfl
  | cons p t ih =>
      calc hFold (p :: t) v = hFold t (hGate p v) := rfl
        _ = hFoldR t.reverse (hGate p v) := ih _
        _ = hFoldR (t.reverse ++ [p]) v := by
            simp [hFoldR, List.foldr_append]
        _ = hFoldR (p :: t).reverse v := by rw [List.reverse_cons]

theorem hFold_posns_delta (n : Nat) (k : Nat) (hk : k < 2^n) :
    hFold (posns n) init0 k = invSqrt2 ^ n := by
  rw [hFold_eq_hFoldR]
  have hnd : (posns n).reverse.Nodup := by
    rw [List.nodup_reverse]
    exact posns_nodup n
  have hmem : ∀ q, k.testBit q = true → q ∈ (posns n).reverse := by
    intro q hq
    rw [List.mem_reverse, mem_posns]
    by_contra hq'
    push_neg at hq'
    have : k.testBit q = false :=
      Nat.testBit_lt_two_pow (lt_of_lt_of_le hk (Nat.pow_le_pow_right (by norm_num) hq'))
    rw [this] at hq
    exact Bool.false_ne_true hq
  rw [(hFoldR_delta (posns n).reverse hnd k).1 hmem, List.length_reverse, posns_length]

theorem sum_subsetMasks_posns (n : Nat) (f : State) :
    ((subsetMasks (posns n)).map f).sum = sumRange (2^n) f := by
  induction n generalizing f with
  | zero =>
      simp [posns, subsetMasks, sumRange, show List.range 1 = [0] from rfl]
  | succ m ih =>
      rw [posns_succ]
      simp only [subsetMasks, List.map_append, List.sum_append, List.map_map, Function.comp_def]
      rw [ih f, ih (fun j => f (j ^^^ 2^m))]
      have hsplit : List.range (2^(m+1)) = List.range (2^m) ++ (List.range (2^m)).map (2^m + ·) := by
        rw [show (2:Nat)^(m+1) = 2^m + 2^m by rw [pow_succ, Nat.mul_two], List.range_add]
      rw [sumRange, sumRange, sumRange, hsplit, List.map_append, List.sum_append, List.map_map,
        Function.comp_def]
      congr 1
      refine congrArg List.sum (List.map_congr_left ?_)
      intro j hj
      rw [List.mem_range] at hj
      rw [xor_two_pow_eq_add hj, Nat.add_comm]

theorem maskSum_posns (n : Nat) : maskSum (posns n) = 2^n - 1 := by
  induction n with
  | zero => rfl
  | succ m ih =>
      rw [posns_succ]
      show 2^m ^^^ maskSum (posns m) = 2^(m+1) - 1
      rw [ih, Nat.xor_comm,
        xor_two_pow_eq_add (by have h1 : 1 ≤ (2:Nat)^m := Nat.one_le_two_pow; omega)]
      have h2 : (2:Nat)^(m+1) = 2^m + 2^m := by rw [pow_succ, Nat.mul_two]
      have h1 : 1 ≤ (2:Nat)^m := Nat.one_le_two_pow
      omega

/-! ### The diffuser: involution and reflection about the mean -/

theorem diffuserOps_apply (n : Nat) (v : State) :
    applyOps n (diffuserOps n) v
      = hFold (posns n)
          (xFold (posns n) (applyOps n (mczOps n) (xFold (posns n) (hFold (posns n) v)))) := by
  unfold diffuserOps
  rw [applyOps_append, applyOps_append, applyOps_append, applyOps_append,
    applyOps_hOps, applyOps_xOps, applyOps_xOps, applyOps_hOps]

theorem mcz_invol (n : Nat) (hn : 1 ≤ n) (v : State) :
    applyOps n (mczOps n) (applyOps n (mczOps n) v) = v := by
  funext k
  rw [mczOps_apply n hn _ k, mczOps_apply n hn v k]
  by_cases hc : allOnesB n k <;> simp [hc]

theorem diffuser_invol (n : Nat) (hn : 1 ≤ n) (v : State) :
    applyOps n (diffuserOps n) (applyOps n (diffuserOps n) v) = v := by
  rw [diffuserOps_apply, diffuserOps_apply, hFold_hFold (posns_nodup n), xFold_xFold,
    mcz_invol n hn, xFold_xFold, hFold_hFold (posns_nodup n)]

theorem allOnesB_xor_ones {n j : Nat} (hj : j < 2^n) :
    allOnesB n (j ^^^ (2^n - 1)) = decide (j = 0) := by
  rcases eq_or_ne j 0 with rfl | hne
  · simp [allOnesB, List.all_eq_true, Nat.testBit_two_pow_sub_one]
  · obtain ⟨q, hq⟩ : ∃ q, j.testBit q = true := by
      by_contra hq
      push_neg at hq
      exact hne (Nat.zero_of_testBit_eq_false (fun i => by
        cases hi : j.testBit i
        · rfl
        · exact absurd hi (hq i)))
    have hqn : q < n := by
      by_contra hqn
      push_neg at hqn
      have : j.testBit q = false :=
        Nat.testBit_lt_two_pow (lt_of_lt_of_le hj (Nat.pow_le_pow_right (by norm_num) hqn))
      rw [this] at hq
      exact Bool.false_ne_true hq
    have hqf : (j ^^^ (2^n - 1)).testBit q = false := by
      rw [Nat.testBit_xor, hq, Nat.testBit_two_pow_sub_one, decide_eq_true hqn]
      rfl
    have hLHS : allOnesB n (j ^^^ (2^n - 1)) = false := by
      rw [allOnesB]
      refine List.all_eq_false.mpr ⟨q, List.mem_range.mpr hqn, ?_⟩
      rw [hqf]
      exact Bool.false_ne_true
    rw [hLHS, decide_eq_false hne]

theorem Q2.ofRat_two_mul (x : Q2) : Q2.ofRat 2 * x = x + x := by
  ext <;> simp <;> ring

theorem diffuser_reflect (n : Nat) (hn : 1 ≤ n) (v : State) (k : Nat) (hk : k < 2^n) :
    applyOps n (diffuserOps n) v k
      = v k - Q2.ofRat (2 / 2^n) * sumRange (2^n) v := by
  rw [diffuserOps_apply]
  have hGu : ∀ j, j < 2^n →
      xFold (posns n) (applyOps n (mczOps n) (xFold (posns n) (hFold (posns n) v))) j
        = hFold (posns n) v j
            - (Q2.ofRat 2 * hFold (posns n) v 0) * init0 j := by
    intro j hj
    simp only [xFold_eq]
    rw [mczOps_apply n hn _ (j ^^^ maskSum (posns n))]
    have hxx : j ^^^ maskSum (posns n) ^^^ maskSum (posns n) = j := by
      simp [Nat.xor_assoc]
    rw [maskSum_posns] at hxx ⊢
    rw [allOnesB_xor_ones hj, hxx]
    rcases eq_or_ne j 0 with rfl | hne
    · simp [init0, Q2.ofRat_two_mul]
    · simp [init0, hne]
  have hcongr := @hFold_congr_low n (posns n) (fun p hp => mem_posns.mp hp)
    (xFold (posns n) (applyOps n (mczOps n) (xFold (posns n) (hFold (posns n) v))))
    (fun j => hFold (posns n) v j - Q2.ofRat 2 * hFold (posns n) v 0 * init0 j) hGu k hk
  have hsub : hFold (posns n)
      (fun j => hFold (posns n) v j - Q2.ofRat 2 * hFold (posns n) v 0 * init0 j) k
      = hFold (posns n) (hFold (posns n) v) k
          - Q2.ofRat 2 * hFold (posns n) v 0 * hFold (posns n) init0 k :=
    congrFun (hFold_sub_smul (posns n) (hFold (posns n) v) init0
      (Q2.ofRat 2 * hFold (posns n) v 0)) k
  rw [hcongr, hsub]
  rw [hFold_hFold (posns_nodup n), hFold_posns_delta n k hk,
    hFold_zero (posns n) (posns_nodup n) v, posns_length, sum_subsetMasks_posns]
  have halg : (Q2.ofRat 2 * (invSqrt2^n * sumRange (2^n) v)) * invSqrt2^n
      = Q2.ofRat (2 / 2^n) * sumRange (2^n) v := by
    have h1 : (Q2.ofRat 2 * (invSqrt2^n * sumRange (2^n) v)) * invSqrt2^n
        = Q2.ofRat 2 * (invSqrt2^n * invSqrt2^n) * sumRange (2^n) v := by ring
    rw [h1, invSqrt2_pow_mul_self, Q2.ofRat_mul]
    congr 1
    ring
  rw [halg]

/-! ### The oracle: an X-conjugated multi-controlled-Z -/

theorem oracleOps_apply (n : Nat) (hn : 1 ≤ n) (marked : Int) (v : State) (k : Nat) :
    applyOps n (oracleCircuitOps n marked) v k
      = if allOnesB n (k ^^^ flipMask n marked) then -(v k) else v k := by
  unfold oracleCircuitOps xFlips
  rw [applyOps_append, applyOps_append, applyOps_map_x, applyOps_map_x]
  have hfm : maskSum ((zeroPositions (index_to_bitstring marked n).data).map
      (fun q => n - 1 - q)) = flipMask n marked := rfl
  simp only [xFold_eq, hfm]
  rw [mczOps_apply n hn _ (k ^^^ flipMask n marked)]
  have hxx : k ^^^ flipMask n marked ^^^ flipMask n marked = k := by
    simp [Nat.xor_assoc]
  rw [hxx]

/-! ### Real magnitudes of the ℚ[√2] amplitudes -/

theorem Q2.toReal_mul (x y : Q2) : (x * y).toReal = x.toReal * y.toReal := by
  simp only [Q2.toReal, Q2.mul_a, Q2.mul_b]
  push_cast
  have h2 : Real.sqrt 2 * Real.sqrt 2 = 2 := Real.mul_self_sqrt (by norm_num)
  linear_combination (-((x.b : ℝ) * (y.b : ℝ))) * h2

theorem Q2.toReal_one : (1 : Q2).toReal = 1 := by simp [Q2.toReal]

theorem Q2.toReal_zero : (0 : Q2).toReal = 0 := by simp [Q2.toReal]

theorem Q2.toReal_neg (x : Q2) : (-x).toReal = -(x.toReal) := by
  simp [Q2.toReal]
  ring

theorem Q2.toReal_ofRat (q : ℚ) : (Q2.ofRat q).toReal = (q : ℝ) := by
  simp [Q2.toReal, Q2.ofRat]

theorem Q2.toReal_pow (x : Q2) (n : Nat) : (x^n).toReal = x.toReal^n := by
  induction n with
  | zero => simpa using Q2.toReal_one
  | succ m ih => rw [pow_succ, Q2.toReal_mul, ih, pow_succ]

theorem toReal_invSqrt2 : invSqrt2.toReal = Real.sqrt 2 / 2 := by
  simp [Q2.toReal, invSqrt2]
  ring

theorem sqrt_two_pow (n : Nat) : Real.sqrt ((2:ℝ)^n) = (Real.sqrt 2)^n := by
  induction n with
  | zero => simp
  | succ m ih => rw [pow_succ, Real.sqrt_mul (by positivity), ih, pow_succ]

theorem toReal_invSqrt2_pow (n : Nat) :
    Q2.toReal (invSqrt2^n) = 1 / Real.sqrt ((2:ℝ)^n) := by
  rw [Q2.toReal_pow, toReal_invSqrt2, sqrt_two_pow, eq_div_iff (by positivity), ← mul_pow]
  have h1 : Real.sqrt 2 / 2 * Real.sqrt 2 = 1 := by
    rw [div_mul_eq_mul_div, Real.mul_self_sqrt (by norm_num)]
    norm_num
  rw [h1, one_pow]

theorem toReal_invSqrt2_pow_pos (n : Nat) : 0 < Q2.toReal (invSqrt2^n) := by
  rw [toReal_invSqrt2_pow]
  positivity

/-! ### Properties of the binary formatting -/

theorem natToBinAux_eq_of_lt : ∀ {f : Nat} {g k : Nat}, k < f → k < g →
    natToBinAux f k = natToBinAux g k := by
  intro f
  induction f with
  | zero => intro g k hf _; omega
  | succ f' ih =>
      intro g k hf hg
      cases g with
      | zero => omega
      | succ g' =>
          simp only [natToBinAux]
          by_cases h2 : k < 2
          · simp [h2]
          · have hk2 : k / 2 < k := Nat.div_lt_self (by omega) (by omega)
            simp only [if_neg h2]
            rw [@ih g' (k / 2) (by omega) (by omega)]

theorem natToBin_lt_two {k : Nat} (h : k < 2) : natToBin k = [binDigit k] := by
  unfold natToBin
  simp [natToBinAux, h]

theorem natToBin_two_le {k : Nat} (h : 2 ≤ k) : natToBin k = natToBin (k/2) ++ [binDigit (k % 2)] := by
  have h2 : ¬ k < 2 := by omega
  have hk2 : k / 2 < k := Nat.div_lt_self (by omega) (by omega)
  unfold natToBin
  rw [show natToBinAux (k+1) k = natToBinAux k (k/2) ++ [binDigit (k % 2)] from by
    simp [natToBinAux, h2]]
  congr 1
  exact natToBinAux_eq_of_lt (by omega) (Nat.lt_succ_self _)

theorem natToBin_length_ge_one (k : Nat) : 1 ≤ (natToBin k).length := by
  by_cases h : k < 2
  · rw [natToBin_lt_two h]
    simp
  · rw [natToBin_two_le (by omega)]
    simp

theorem natToBin_length_le {k : Nat} : ∀ {n : Nat}, 1 ≤ n → k < 2^n →
    (natToBin k).length ≤ n := by
  induction k using Nat.strong_induction_on with
  | _ k ih =>
      intro n hn h
      by_cases h2 : k < 2
      · rw [natToBin_lt_two h2]
        simpa using hn
      · have hk2 : k / 2 < k := Nat.div_lt_self (by omega) (by omega)
        have hn2 : 2 ≤ n := by
          rcases Nat.lt_or_ge n 2 with hlt | hge
          · have hn1 : n = 1 := by omega
            subst hn1
            simp only [pow_one] at h
            omega
          · exact hge
        have h2n : (2:Nat)^n = 2 * 2^(n-1) := by
          conv_lhs => rw [show n = n - 1 + 1 by omega]
          rw [pow_succ]
          ring
        have hdiv : k / 2 < 2^(n-1) := by omega
        have := ih (k/2) hk2 (by omega) hdiv
        rw [natToBin_two_le (by omega)]
        simp only [List.length_append, List.length_cons, List.length_nil]
        omega

theorem natToBin_length_gt {k : Nat} : ∀ {n : Nat}, 2^n ≤ k →
    n + 1 ≤ (natToBin k).length := by
  induction k using Nat.strong_induction_on with
  | _ k ih =>
      intro n h
      by_cases h2 : k < 2
      · have hn0 : n = 0 := by
          by_contra hn
          have h1 : 2 ≤ 2^n := by
            have := Nat.one_lt_two_pow_iff.mpr hn
            omega
          omega
        subst hn0
        rw [natToBin_lt_two h2]
        simp
      · rw [natToBin_two_le (by omega)]
        simp only [List.length_append, List.length_cons, List.length_nil]
        rcases Nat.eq_zero_or_pos n with rfl | hn
        · have := natToBin_length_ge_one (k/2)
          omega
        · have h2n : (2:Nat)^n = 2 * 2^(n-1) := by
            have he : n - 1 + 1 = n := by omega
            calc (2:Nat)^n = 2^(n-1+1) := by rw [he]
              _ = 2 * 2^(n-1) := by rw [pow_succ]; ring
          have hdiv : 2^(n-1) ≤ k / 2 := by omega
          have := ih (k/2) (Nat.div_lt_self (by omega) (by omega)) hdiv
          omega

theorem natToBin_mem (k : Nat) : ∀ c ∈ natToBin k, c = '0' ∨ c = '1' := by
  induction k using Nat.strong_induction_on with
  | _ k ih =>
      by_cases h2 : k < 2
      · rw [natToBin_lt_two h2]
        intro c hc
        rw [List.mem_singleton] at hc
        subst hc
        unfold binDigit
        split
        · right; rfl
        · left; rfl
      · rw [natToBin_two_le (by omega)]
        intro c hc
        rcases List.mem_append.mp hc with hc | hc
        · exact ih (k/2) (Nat.div_lt_self (by omega) (by omega)) c hc
        · rw [List.mem_singleton] at hc
          subst hc
          unfold binDigit
          split
          · right; rfl
          · left; rfl

theorem binToNat_append_singleton (l : List Char) (c : Char) :
    binToNat (l ++ [c]) = 2 * binToNat l + (if c = '1' then 1 else 0) := by
  simp [binToNat, List.foldl_append]

theorem binToNat_natToBin (k : Nat) : binToNat (natToBin k) = k := by
  induction k using Nat.strong_induction_on with
  | _ k ih =>
      by_cases h2 : k < 2
      · interval_cases k
        · rfl
        · rfl
      · rw [natToBin_two_le (by omega), binToNat_append_singleton,
          ih (k/2) (Nat.div_lt_self (by omega) (by omega))]
        have hd : (if binDigit (k % 2) = '1' then 1 else 0) = k % 2 := by
          unfold binDigit
          rcases Nat.mod_two_eq_zero_or_one k with h | h <;> simp [h]
        rw [hd]
        omega

theorem binToNat_replicate_zero_append (z : Nat) (l : List Char) :
    binToNat (List.replicate z '0' ++ l) = binToNat l := by
  induction z with
  | zero => simp
  | succ m ih =>
      rw [List.replicate_succ, List.cons_append]
      show List.foldl _ (2 * 0 + (if '0' = '1' then 1 else 0)) _ = _
      simp only [show ('0' = '1') = False from by simp, if_false, Nat.mul_zero, Nat.add_zero]
      exact ih

theorem zeroPad_length (w : Nat) (l : List Char) :
    (zeroPad w l).length = max w l.length := by
  simp only [zeroPad, List.length_append, List.length_replicate]
  omega

/-! ### Operation-classification helpers -/

theorem xFlips_no_measure (bs : List Char) : ∀ g ∈ xFlips bs, g.isMeasure = false := by
  intro g hg
  rcases List.mem_map.mp hg with ⟨q, -, rfl⟩
  rfl

theorem hOps_no_measure (n : Nat) : ∀ g ∈ hOps n, g.isMeasure = false := by
  intro g hg
  rcases List.mem_map.mp hg with ⟨q, -, rfl⟩
  rfl

theorem xOps_no_measure (n : Nat) : ∀ g ∈ xOps n, g.isMeasure = false := by
  intro g hg
  rcases List.mem_map.mp hg with ⟨q, -, rfl⟩
  rfl

theorem mczOps_no_measure (n : Nat) : ∀ g ∈ mczOps n, g.isMeasure = false := by
  unfold mczOps
  split
  · intro g hg
    rw [List.mem_singleton] at hg
    subst hg
    rfl
  · intro g hg
    simp only [List.mem_cons, List.mem_singleton, List.not_mem_nil, or_false] at hg
    rcases hg with rfl | rfl | rfl <;> rfl

theorem oracleCircuitOps_no_measure (n : Nat) (marked : Int) :
    ∀ g ∈ oracleCircuitOps n marked, g.isMeasure = false := by
  intro g hg
  unfold oracleCircuitOps at hg
  rcases List.mem_append.mp hg with hg | hg
  · rcases List.mem_append.mp hg with hg | hg
    · exact xFlips_no_measure _ g hg
    · exact mczOps_no_measure n g hg
  · exact xFlips_no_measure _ g hg

theorem diffuserOps_no_measure (n : Nat) : ∀ g ∈ diffuserOps n, g.isMeasure = false := by
  intro g hg
  unfold diffuserOps at hg
  rcases List.mem_append.mp hg with hg | hg
  · rcases List.mem_append.mp hg with hg | hg
    · rcases List.mem_append.mp hg with hg | hg
      · rcases List.mem_append.mp hg with hg | hg
        · exact hOps_no_measure n g hg
        · exact xOps_no_measure n g hg
      · exact mczOps_no_measure n g hg
    · exact xOps_no_measure n g hg
  · exact hOps_no_measure n g hg

/-! ## The claims -/

/-- C2: for every valid `n` (`n ≥ 1`), applying `build_diffuser(n)` twice
returns any state to itself — exactly, so in particular up to a global
phase (the phase is 1) — and a single application sends amplitude `v k` to
`-(2·mean - v k)`: it performs the reflection of the amplitude vector
about its mean composed with the global phase factor −1. -/
theorem grover_c2 : ∀ (n : Nat), 1 ≤ n → ∀ (v : State),
    applyOps n (diffuserOps n) (applyOps n (diffuserOps n) v) = v
    ∧ ∀ k, k < 2^n →
        applyOps n (diffuserOps n) v k
          = -(Q2.ofRat 2 * amplitudeMean n v - v k) := by
  intro n hn v
  refine ⟨diffuser_invol n hn v, ?_⟩
  intro k hk
  rw [diffuser_reflect n hn v k hk]
  unfold amplitudeMean
  rw [show Q2.ofRat 2 * (Q2.ofRat (1/2^n) * sumRange (2^n) v)
      = Q2.ofRat (2/2^n) * sumRange (2^n) v from by
    rw [← mul_assoc, Q2.ofRat_mul]
    congr 1
    ring]
  ring

theorem grover_c2_witness :
    applyOps 1 (diffuserOps 1) (applyOps 1 (diffuserOps 1) vW) 0 = vW 0
    ∧ applyOps 1 (diffuserOps 1) vW 1 = -(Q2.ofRat 2 * amplitudeMean 1 vW - vW 1) := by
  have h := grover_c2 1 (by norm_num) vW
  exact ⟨congrFun h.1 0, h.2 1 (by norm_num)⟩

/-- C3: for every `n ≥ 1` the multi-controlled-Z block of the source
(`H(n-1); MCX([0..n-2], n-1); H(n-1)` for `n ≥ 2`, `Z(0)` for `n = 1`)
multiplies the amplitude of exactly those indices whose `n` low bits are
all 1 by −1 and leaves every other amplitude unchanged; among the basis
indices `k < 2ⁿ` that condition picks out exactly the all-ones state
`k = 2ⁿ - 1`. -/
theorem grover_c3 : ∀ (n : Nat), 1 ≤ n →
    (∀ (v : State) (k : Nat),
      applyOps n (mczOps n) v k = if allOnesB n k then -(v k) else v k)
    ∧ (∀ k, k < 2^n → (allOnesB n k = true ↔ k = 2^n - 1)) := by
  intro n hn
  refine ⟨fun v k => mczOps_apply n hn v k, ?_⟩
  intro k hk
  constructor
  · intro hall
    apply Nat.eq_of_testBit_eq
    intro i
    rw [Nat.testBit_two_pow_sub_one]
    by_cases hi : i < n
    · rw [decide_eq_true hi]
      exact List.all_eq_true.mp hall i (List.mem_range.mpr hi)
    · rw [decide_eq_false hi]
      exact Nat.testBit_lt_two_pow
        (lt_of_lt_of_le hk (Nat.pow_le_pow_right (by norm_num) (by omega)))
  · rintro rfl
    unfold allOnesB
    rw [List.all_eq_true]
    intro p hp
    rw [Nat.testBit_two_pow_sub_one, decide_eq_true (List.mem_range.mp hp)]

theorem grover_c3_witness :
    applyOps 2 (mczOps 2) vW 3 = -(vW 3) ∧ applyOps 2 (mczOps 2) vW 1 = vW 1 := by
  have h := (grover_c3 2 (by norm_num)).1
  constructor
  · rw [h vW 3, if_pos (by decide)]
  · rw [h vW 1, if_neg (by decide)]

/-- C5: `recommend_iterations(n)` equals `max(1, ⌊(π/4)·√(2ⁿ)⌋)` (so it is
always at least 1), with the concrete values `recommend_iterations(2) = 1`
and `recommend_iterations(3) = 2`. -/
theorem grover_c5 :
    (∀ n : Nat, recommend_iterations n = max 1 ⌊(Real.pi / 4) * Real.sqrt ((2:ℝ)^n)⌋)
    ∧ (∀ n : Nat, 1 ≤ recommend_iterations n)
    ∧ recommend_iterations 2 = 1 ∧ recommend_iterations 3 = 2 := by
  refine ⟨fun n => rfl, fun n => le_max_left 1 _, ?_, ?_⟩
  · unfold recommend_iterations
    have hs : Real.sqrt ((2:ℝ)^2) = 2 := by
      rw [Real.sqrt_sq (by norm_num)]
    rw [hs]
    have hpi1 := Real.pi_gt_3141592
    have hpi2 := Real.pi_lt_315
    have hfloor : ⌊Real.pi / 4 * 2⌋ = 1 := by
      rw [Int.floor_eq_iff]
      push_cast
      constructor <;> nlinarith
    rw [hfloor]
    norm_num
  · unfold recommend_iterations
    have hs : Real.sqrt ((2:ℝ)^3) = 2 * Real.sqrt 2 := by
      rw [show ((2:ℝ)^3) = 2^2 * 2 by norm_num, Real.sqrt_mul (by norm_num),
        Real.sqrt_sq (by norm_num)]
    rw [hs]
    have hpi1 := Real.pi_gt_3141592
    have hpi2 := Real.pi_lt_315
    have hsq1 : (1.414:ℝ) < Real.sqrt 2 := (Real.lt_sqrt (by norm_num)).mpr (by norm_num)
    have hsq2 : Real.sqrt 2 < 1.415 := (Real.sqrt_lt' (by norm_num)).mpr (by norm_num)
    have hfloor : ⌊Real.pi / 4 * (2 * Real.sqrt 2)⌋ = 2 := by
      rw [Int.floor_eq_iff]
      push_cast
      constructor <;> nlinarith
    rw [hfloor]
    norm_num

/-- C6: `build_oracle(n, marked_index)` fails (with the "DomainError"
`ValueError`) exactly when `marked_index ∉ [0, 2ⁿ)`, returning a circuit
without raising otherwise; in particular `build_oracle(2, 4)` fails. -/
theorem grover_c6 :
    (∀ (n : Nat) (marked : Int),
      isOkB (build_oracle n marked) = true ↔ (0 ≤ marked ∧ marked < (2:Int)^n))
    ∧ build_oracle 2 4 = Except.error "marked_index out of range" := by
  constructor
  · intro n marked
    unfold build_oracle
    split
    next h =>
      simp only [isOkB, Bool.false_eq_true, false_iff]
      rintro ⟨h0, hlt⟩
      rcases h with h | h
      · omega
      · exact absurd (lt_of_lt_of_le hlt h) (lt_irrefl _)
    next h =>
      push_neg at h
      simp only [isOkB, true_iff]
      exact ⟨h.1, h.2⟩
  · rfl

theorem build_oracle_ok {n : Nat} {marked : Int} (hm : 0 ≤ marked)
    (hlt : marked < (2:Int)^n) :
    build_oracle n marked = Except.ok ⟨n, 0, oracleCircuitOps n marked⟩ := by
  unfold build_oracle
  rw [if_neg (by push_neg; exact ⟨hm, hlt⟩)]

/-- C10: `build_grover_circuit` performs no validation of the iteration
count: for `n ≥ 1`, in-range `marked_index` and `iterations ≤ 0` it
returns (without raising) the circuit containing only the initial `H`
layer and the terminal measurement — zero oracle and diffuser blocks. -/
theorem grover_c10 : ∀ (n marked iterations : Int), 1 ≤ n → 0 ≤ marked →
    marked < (2:Int)^n.toNat → iterations ≤ 0 →
    build_grover_circuit n marked iterations
      = Except.ok ⟨n.toNat, n.toNat, hOps n.toNat ++ measureOps n.toNat⟩ := by
  intro n marked iterations hn hm hlt hit
  unfold build_grover_circuit
  rw [if_neg (by omega), build_oracle_ok hm hlt, Int.toNat_of_nonpos hit]
  simp

theorem grover_c10_witness :
    build_grover_circuit 2 1 (-3) = Except.ok ⟨2, 2, hOps 2 ++ measureOps 2⟩ :=
  grover_c10 2 1 (-3) (by decide) (by decide) (by decide) (by decide)

/-- C4: for `n ≥ 1`, in-range `marked_index` and any `iterations`,
`build_grover_circuit` returns exactly: `H` on each of the `n` qubits,
then `iterations` repetitions in strict alternation of the inlined oracle
block and the inlined diffuser block, then the measurement of every qubit
`i` into classical bit `i` — and nothing follows the measurement block
(everything before it is a gate, everything in it a measurement).  For
`n < 1` it fails with the "DomainError" `ValueError`, in particular at
`(0, 0, 1)`. -/
theorem grover_c4 : ∀ (n marked iterations : Int),
    (1 ≤ n → 0 ≤ marked → marked < (2:Int)^n.toNat →
      build_grover_circuit n marked iterations
        = Except.ok ⟨n.toNat, n.toNat,
            hOps n.toNat
              ++ (List.replicate iterations.toNat
                    (oracleCircuitOps n.toNat marked ++ diffuserOps n.toNat)).flatten
              ++ measureOps n.toNat⟩
      ∧ (∀ g ∈ hOps n.toNat
            ++ (List.replicate iterations.toNat
                  (oracleCircuitOps n.toNat marked ++ diffuserOps n.toNat)).flatten,
          g.isMeasure = false)
      ∧ (∀ g ∈ measureOps n.toNat, g.isMeasure = true))
    ∧ (n < 1 → build_grover_circuit n marked iterations = Except.error "n must be >= 1")
    ∧ build_grover_circuit 0 0 1 = Except.error "n must be >= 1" := by
  intro n marked iterations
  refine ⟨?_, ?_, ?_⟩
  · intro hn hm hlt
    refine ⟨?_, ?_, ?_⟩
    · unfold build_grover_circuit
      rw [if_neg (by omega), build_oracle_ok hm hlt]
      rfl
    · intro g hg
      rcases List.mem_append.mp hg with hg | hg
      · exact hOps_no_measure _ g hg
      · rcases List.mem_flatten.mp hg with ⟨l, hl, hgl⟩
        have hle : l = oracleCircuitOps n.toNat marked ++ diffuserOps n.toNat :=
          List.eq_of_mem_replicate hl
        subst hle
        rcases List.mem_append.mp hgl with h | h
        · exact oracleCircuitOps_no_measure _ _ g h
        · exact diffuserOps_no_measure _ g h
    · intro g hg
      rcases List.mem_map.mp hg with ⟨i, -, rfl⟩
      rfl
  · intro hn
    unfold build_grover_circuit
    rw [if_pos (by omega)]
  · rfl

theorem grover_c4_witness :
    build_grover_circuit 2 2 1
      = Except.ok ⟨2, 2,
          hOps 2 ++ (List.replicate 1 (oracleCircuitOps 2 2 ++ diffuserOps 2)).flatten
            ++ measureOps 2⟩ :=
  ((grover_c4 2 2 1).1 (by decide) (by decide) (by decide)).1

/-- C8 (counterexample): on the out-of-range input `index = 4, n = 2` the
source's `index_to_bitstring` does not fail with a `DomainError` — it
totally returns the 3-character string `"100"`, refuting the claimed
failure behaviour. -/
theorem grover_c8_counterexample :
    index_to_bitstring 4 2 = "100" ∧ (index_to_bitstring 4 2).length ≠ 2 := by
  constructor
  · rfl
  · decide

theorem index_to_bitstring_in_range : ∀ (index : Int) (n : Nat),
    0 ≤ index → index < (2:Int)^n → 1 ≤ n →
    (index_to_bitstring index n).length = n
    ∧ (∀ c ∈ (index_to_bitstring index n).data, c = '0' ∨ c = '1')
    ∧ binToNat (index_to_bitstring index n).data = index.toNat := by
  intro index n h0 hlt hn
  have hneg : ¬ index < 0 := by omega
  have hkn : index.toNat < 2^n := by
    have h1 : (index.toNat : Int) = index := Int.toNat_of_nonneg h0
    have h2 : ((2^n : Nat) : Int) = (2:Int)^n := by push_cast; ring
    omega
  unfold index_to_bitstring
  rw [if_neg hneg]
  refine ⟨?_, ?_, ?_⟩
  · show (zeroPad n (natToBin index.toNat)).length = n
    rw [zeroPad_length]
    have := natToBin_length_le hn hkn
    omega
  · intro c hc
    rcases List.mem_append.mp hc with hc | hc
    · left
      exact List.eq_of_mem_replicate hc
    · exact natToBin_mem _ c hc
  · show binToNat (zeroPad n (natToBin index.toNat)) = index.toNat
    unfold zeroPad
    rw [binToNat_replicate_zero_append, binToNat_natToBin]

/-- C8 (amended): for `1 ≤ n` and `index ∈ [0, 2ⁿ)` the returned string
has exactly `n` characters over {'0','1'} and its MSB-first binary value
is `index` (zero-padded); for out-of-range `index` the function does not
fail (see the counterexample; C9 describes the actual behaviour). -/
theorem grover_c8 : ∀ (index : Int) (n : Nat), 0 ≤ index → index < (2:Int)^n → 1 ≤ n →
    (index_to_bitstring index n).length = n
    ∧ (∀ c ∈ (index_to_bitstring index n).data, c = '0' ∨ c = '1')
    ∧ binToNat (index_to_bitstring index n).data = index.toNat :=
  fun index n h0 hlt hn => index_to_bitstring_in_range index n h0 hlt hn

theorem grover_c8_witness :
    (index_to_bitstring 5 3).length = 3 ∧ binToNat (index_to_bitstring 5 3).data = 5 := by
  have h := grover_c8 5 3 (by decide) (by decide) (by decide)
  exact ⟨h.1, h.2.2⟩

/-- C9 (counterexample): the claim's in-range clause fails at the edge
`index = 0, n = 0` — the index is in `[0, 2⁰)` but the returned string is
`"0"`, of length 1 rather than `n = 0` characters. -/
theorem grover_c9_counterexample :
    (0:Int) ≤ 0 ∧ (0:Int) < (2:Int)^(0:Nat) ∧ (index_to_bitstring 0 0).length = 1 := by
  refine ⟨by decide, by decide, by decide⟩

/-- C9 (amended): `index_to_bitstring` never raises; for `1 ≤ n` and
`index ∈ [0, 2ⁿ)` it returns exactly `n` characters over {'0','1'}; for
`index ≥ 2ⁿ` the returned binary string is longer than `n` characters
(zero-padding never truncates); for negative `index` the result carries a
leading minus sign. -/
theorem grover_c9 : ∀ (index : Int) (n : Nat),
    (0 ≤ index → index < (2:Int)^n → 1 ≤ n →
      (index_to_bitstring index n).length = n
      ∧ ∀ c ∈ (index_to_bitstring index n).data, c = '0' ∨ c = '1')
    ∧ ((2:Int)^n ≤ index → n < (index_to_bitstring index n).length)
    ∧ (index < 0 → (index_to_bitstring index n).data.head? = some '-') := by
  intro index n
  refine ⟨?_, ?_, ?_⟩
  · intro h0 hlt hn
    have h := index_to_bitstring_in_range index n h0 hlt hn
    exact ⟨h.1, h.2.1⟩
  · intro h
    have h0 : 0 ≤ index := le_trans (by positivity) h
    have hge : 2^n ≤ index.toNat := by
      have h1 : (index.toNat : Int) = index := Int.toNat_of_nonneg h0
      have h2 : ((2^n : Nat) : Int) = (2:Int)^n := by push_cast; ring
      omega
    unfold index_to_bitstring
    rw [if_neg (by omega)]
    show n < (zeroPad n (natToBin index.toNat)).length
    rw [zeroPad_length]
    have := natToBin_length_gt hge
    omega
  · intro h
    unfold index_to_bitstring
    rw [if_pos h]
    rfl

theorem grover_c9_witness :
    2 < (index_to_bitstring 9 2).length
    ∧ (index_to_bitstring (-3) 5).data.head? = some '-' := by
  exact ⟨(grover_c9 9 2).2.1 (by decide), (grover_c9 (-3) 5).2.2 (by decide)⟩

/-- C1: for `n ∈ {1,2,3}` and every `marked_index ∈ [0, 2ⁿ)`,
`build_oracle` succeeds, and applying its circuit to the uniform
superposition flips the sign of exactly the `marked_index` amplitude;
every amplitude keeps magnitude `1/√(2ⁿ)` (the unflipped common amplitude
equals `1/√(2ⁿ)`, which is positive). -/
theorem grover_c1 : ∀ (n m k : Nat), (n = 1 ∨ n = 2 ∨ n = 3) → m < 2^n → k < 2^n →
    build_oracle n m = Except.ok ⟨n, 0, oracleCircuitOps n m⟩
    ∧ applyOps n (oracleCircuitOps n m) (uniformState n) k
        = (if k = m then -(invSqrt2^n) else invSqrt2^n)
    ∧ Q2.toReal (invSqrt2^n) = 1 / Real.sqrt ((2:ℝ)^n)
    ∧ 0 < Q2.toReal (invSqrt2^n) := by
  intro n m k hn hm hk
  refine ⟨?_, ?_, toReal_invSqrt2_pow n, toReal_invSqrt2_pow_pos n⟩
  · apply build_oracle_ok
    · exact_mod_cast Nat.zero_le m
    · exact_mod_cast hm
  · have hn1 : 1 ≤ n := by rcases hn with rfl | rfl | rfl <;> norm_num
    rw [oracleOps_apply n hn1 m (uniformState n) k]
    rcases hn with rfl | rfl | rfl <;>
      · norm_num at hm hk
        interval_cases m <;> interval_cases k <;> simp +decide [uniformState]

theorem grover_c1_witness :
    applyOps 2 (oracleCircuitOps 2 1) (uniformState 2) 1 = -(invSqrt2^2)
    ∧ 0 < Q2.toReal (invSqrt2^2) := by
  have h := grover_c1 2 1 1 (Or.inr (Or.inl rfl)) (by norm_num) (by norm_num)
  refine ⟨?_, h.2.2.2⟩
  have h2 := h.2.1
  simpa using h2

/-- C7: for `n = 2`, `marked_index = 2`, `iterations = 1` the assembled
circuit is `H⊗²; oracle; diffuser; measure-all`; basis index 2 has
outcome key `"10"`; and the final pre-measurement state assigns
measurement probability 1 to index 2 — strictly greater than 1/4 and
strictly greater than every other index's probability, so over any shot
count the expected outcome-count mapping is maximised uniquely at `"10"`. -/
theorem grover_c7 :
    build_grover_circuit 2 2 1
      = Except.ok ⟨2, 2, hOps 2 ++ (oracleCircuitOps 2 2 ++ diffuserOps 2) ++ measureOps 2⟩
    ∧ index_to_bitstring 2 2 = "10"
    ∧ probOf (applyOps 2 (hOps 2 ++ (oracleCircuitOps 2 2 ++ diffuserOps 2) ++ measureOps 2)
        init0 2) = 1
    ∧ (1/4 : ℝ) < probOf (applyOps 2 (hOps 2 ++ (oracleCircuitOps 2 2 ++ diffuserOps 2)
        ++ measureOps 2) init0 2)
    ∧ ∀ k, k < 4 → k ≠ 2 →
        probOf (applyOps 2 (hOps 2 ++ (oracleCircuitOps 2 2 ++ diffuserOps 2) ++ measureOps 2)
            init0 k)
          < probOf (applyOps 2 (hOps 2 ++ (oracleCircuitOps 2 2 ++ diffuserOps 2)
              ++ measureOps 2) init0 2) := by
  have e1 : ∀ k, k < 4 → applyOps 2 (hOps 2) init0 k = invSqrt2^2 := by
    intro k hk
    rw [applyOps_hOps]
    exact hFold_posns_delta 2 k (by simpa using hk)
  have e2 : ∀ k, k < 4 → applyOps 2 (oracleCircuitOps 2 2) (applyOps 2 (hOps 2) init0) k
      = (if k = 2 then -(invSqrt2^2) else invSqrt2^2) := by
    intro k hk
    rw [oracleOps_apply 2 (by norm_num) 2 _ k, e1 k hk]
    interval_cases k <;> simp +decide
  have e3 : sumRange (2^2) (applyOps 2 (oracleCircuitOps 2 2) (applyOps 2 (hOps 2) init0))
      = invSqrt2^2 + invSqrt2^2 := by
    have h4 : List.range (2^2) = [0, 1, 2, 3] := rfl
    rw [sumRange, h4]
    simp only [List.map_cons, List.map_nil, List.sum_cons, List.sum_nil]
    rw [e2 0 (by norm_num), e2 1 (by norm_num), e2 2 (by norm_num), e2 3 (by norm_num)]
    simp
  have e4 : ∀ k, k < 4 →
      applyOps 2 (diffuserOps 2)
        (applyOps 2 (oracleCircuitOps 2 2) (applyOps 2 (hOps 2) init0)) k
      = (if k = 2 then -(Q2.ofRat 1) else 0) := by
    intro k hk
    rw [diffuser_reflect 2 (by norm_num) _ k (by simpa using hk), e2 k hk, e3]
    have hs2 : (invSqrt2:Q2)^2 = Q2.ofRat (1/2) := by
      rw [pow_two, invSqrt2_sq]
    rw [hs2]
    interval_cases k <;> ext <;> simp <;> norm_num
  have e5 : ∀ k, k < 4 →
      applyOps 2 (hOps 2 ++ (oracleCircuitOps 2 2 ++ diffuserOps 2) ++ measureOps 2) init0 k
        = (if k = 2 then -(Q2.ofRat 1) else 0) := by
    intro k hk
    rw [applyOps_append, applyOps_measureOps, applyOps_append, applyOps_append]
    exact e4 k hk
  have hv2 : applyOps 2 (hOps 2 ++ (oracleCircuitOps 2 2 ++ diffuserOps 2) ++ measureOps 2)
      init0 2 = -(Q2.ofRat 1) := by
    simpa using e5 2 (by norm_num)
  refine ⟨by rfl, by rfl, ?_, ?_, ?_⟩
  · rw [hv2]
    unfold probOf
    rw [Q2.toReal_neg, Q2.toReal_ofRat]
    norm_num
  · rw [hv2]
    unfold probOf
    rw [Q2.toReal_neg, Q2.toReal_ofRat]
    norm_num
  · intro k hk hne
    have hvk : applyOps 2 (hOps 2 ++ (oracleCircuitOps 2 2 ++ diffuserOps 2) ++ measureOps 2)
        init0 k = 0 := by
      simpa [hne] using e5 k hk
    rw [hvk, hv2]
    unfold probOf
    rw [Q2.toReal_neg, Q2.toReal_ofRat, Q2.toReal_zero]
    norm_num

theorem grover_c7_witness :
    probOf (applyOps 2 (hOps 2 ++ (oracleCircuitOps 2 2 ++ diffuserOps 2) ++ measureOps 2)
        init0 0)
      < probOf (applyOps 2 (hOps 2 ++ (oracleCircuitOps 2 2 ++ diffuserOps 2) ++ measureOps 2)
          init0 2) :=
  grover_c7.2.2.2.2 0 (by norm_num) (by norm_num)

end Grover
